import Mathlib

/-!
Verification of the order-book matching engine in `src/orderbook/mod.rs`.

The Rust code is embedded shallowly:
* `u32` integers become `Nat` (all values stay far below `2^32` in the
  scenarios considered, and no wrapping arithmetic occurs in the source);
* `HashMap<u32, Vec<Order>>` becomes an association list
  `List (Nat × List Order)`; the source never relies on hash iteration
  order except in `get_order_index`, whose result is order-independent
  whenever at most one resting order matches a `(user_id, order_id)` pair;
* panicking operations (`unwrap`, out-of-bounds indexing) are modelled by
  returning `none`, so every fallible entry point returns an `Option`.
-/

/-- Direction of an order (`Side` in the source). -/
inductive Side where
  | Buy : Side
  | Sell : Side
deriving DecidableEq, Repr

/-- `Side::new`: a string is a Buy iff it starts with the character `B`. -/
def Side.new (s : String) : Side :=
  if s.data.head? = some 'B' then Side.Buy else Side.Sell

/-- `Side::get_one_letter_string`. -/
def Side.get_one_letter_string : Side → String
  | Side.Buy => "B"
  | Side.Sell => "S"

/-- The `Response` enum returned to the user. -/
inductive Response where
  | Acknowledge (user_id order_id : Nat) : Response
  | Best (side : String) (price qty : Nat) : Response
  | Reject (user_id order_id : Nat) : Response
  | Trade (buyer_id buyer_order_id seller_id seller_order_id price qty : Nat) : Response
deriving DecidableEq, Repr

/-- The `UserAction` input sum type. -/
inductive UserAction where
  | NewOrder (user_id : Nat) (symbol : String) (price qty : Nat)
      (side : String) (order_id : Nat) : UserAction
  | CancelOrder (user_id order_id : Nat) : UserAction
  | Flush : UserAction
deriving DecidableEq, Repr

/-- A resting order (`Order` struct). -/
structure Order where
  user_id : Nat
  price : Nat
  qty : Nat
  order_id : Nat
deriving DecidableEq, Repr

/-- `Order::new(user_id, price, qty, order_id)`. -/
def Order.new (user_id price qty order_id : Nat) : Order :=
  ⟨user_id, price, qty, order_id⟩

/-- `Order::best`: a `Response::Best` built from this single order's own
price and quantity fields. -/
def Order.best (o : Order) (s : Side) : Response :=
  Response.Best (match s with | Side.Buy => "B" | Side.Sell => "S") o.price o.qty

/-- `Order::ack`. -/
def Order.ack (o : Order) : Response :=
  Response.Acknowledge o.user_id o.order_id

/-- `Order::reject`. -/
def Order.reject (o : Order) : Response :=
  Response.Reject o.user_id o.order_id

/-- The `Trade` record struct. -/
structure Trade where
  buyer_id : Nat
  seller_id : Nat
  buyer_order_id : Nat
  seller_order_id : Nat
  price : Nat
  qty : Nat
deriving DecidableEq, Repr

/-- `Trade::new(o1, o2)`: `o1` is the buyer; price and qty are taken from
the buyer's fields. -/
def Trade.new (o1 o2 : Order) : Trade :=
  ⟨o1.user_id, o2.user_id, o1.order_id, o2.order_id, o1.price, o1.qty⟩

/-- `Trade::get_trade_response`. -/
def Trade.get_trade_response (t : Trade) : Response :=
  Response.Trade t.buyer_id t.buyer_order_id t.seller_id t.seller_order_id t.price t.qty

/-- One side table: `HashMap<u32, Vec<Order>>` as an association list. -/
abbrev SideTable := List (Nat × List Order)

/-- Key lookup in a side table (`HashMap::get`). -/
def tlookup : SideTable → Nat → Option (List Order)
  | [], _ => none
  | (k, v) :: rest, key => if k = key then some v else tlookup rest key

/-- Replace the bucket at a key, or append the binding if the key is
absent (`HashMap::insert` semantics on a hash map without duplicates). -/
def tinsert : SideTable → Nat → List Order → SideTable
  | [], key, v => [(key, v)]
  | (k, w) :: rest, key, v =>
      if k = key then (key, v) :: rest else (k, w) :: tinsert rest key v

/-- Remove the binding at a key (`HashMap::remove_entry`). -/
def terase : SideTable → Nat → SideTable
  | [], _ => []
  | (k, w) :: rest, key => if k = key then terase rest key else (k, w) :: terase rest key

/-- Key list of a side table (`HashMap::keys`). -/
def tkeys (m : SideTable) : List Nat := m.map (fun kv => kv.1)

/-- `Iterator::min` over a list of keys. -/
def listMin? : List Nat → Option Nat
  | [] => none
  | x :: xs => some (match listMin? xs with | none => x | some m => min x m)

/-- `Iterator::max` over a list of keys. -/
def listMax? : List Nat → Option Nat
  | [] => none
  | x :: xs => some (match listMax? xs with | none => x | some m => max x m)

/-- `col_insert.entry(price).or_insert(vec![])`: guarantee a (possibly
empty) bucket exists at the key. -/
def entry_or_insert (m : SideTable) (k : Nat) : SideTable :=
  match tlookup m k with
  | some _ => m
  | none => tinsert m k []

/-- `val.iter().enumerate().find_map(..)` followed by `val.remove(k)`:
find the first order of the bucket with the given quantity and return it
together with the bucket with that order removed. -/
def findQtyMatch : List Order → Nat → Option (Order × List Order)
  | [], _ => none
  | o :: rest, q =>
      if o.qty = q then some (o, rest)
      else (findQtyMatch rest q).map (fun p => (p.1, o :: p.2))

/-- Sum of the quantities of the orders of a bucket. -/
def sumQty (l : List Order) : Nat := (l.map Order.qty).sum

/-- The fold at the end of the rest-as-best branch of `new_order_logic`:
starting from `Best { side, price: 0, qty: 0 }`, each order overwrites the
price and accumulates the quantity. -/
def foldBest (side : Side) (l : List Order) : Response :=
  l.foldl
    (fun acc o =>
      match acc with
      | Response.Best s _ q => Response.Best s o.price (q + o.qty)
      | _ => acc)
    (Response.Best side.get_one_letter_string 0 0)

/-- The components mutated by `new_order_logic` through its `&mut`
parameters, together with the returned response pair. -/
structure NewOrderOutcome where
  res1 : Option Response
  res2 : Option Response
  col_insert : SideTable
  col_search : SideTable
  trades : List Trade
  best : Nat
  best_opposite : Nat
deriving DecidableEq, Repr

/-- `OrderBook::new_order_logic`, translated branch for branch.  The
`entry(..).or_insert(vec![])` call runs before the classification, so the
insert-side table may gain an empty bucket on every path. -/
def new_order_logic (col_insert col_search : SideTable) (trades : List Trade)
    (best best_opposite : Nat) (order : Order) (side : Side)
    (trade_active : Bool) (f : Nat → Nat → Bool) : NewOrderOutcome :=
  let price := order.price
  let col1 := entry_or_insert col_insert price
  let bucket := (tlookup col1 price).getD []
  if f price best_opposite && !col_search.isEmpty then
    if trade_active then
      match tlookup col_search price with
      | some val =>
        match findQtyMatch val order.qty with
        | some (resting, remaining) =>
          let ack := order.ack
          let trade := match side with
            | Side.Buy => Trade.new order resting
            | Side.Sell => Trade.new resting order
          let trade_resp := trade.get_trade_response
          let trades' := trades ++ [trade]
          if remaining.isEmpty then
            let col_search' := terase col_search price
            let bo' := match side with
              | Side.Buy => (listMin? (tkeys col_search')).getD 0
              | Side.Sell => (listMax? (tkeys col_search')).getD 0
            ⟨some ack, some trade_resp, col1, col_search', trades', best, bo'⟩
          else
            ⟨some ack, some trade_resp, col1, tinsert col_search price remaining,
              trades', best, best_opposite⟩
        | none =>
          ⟨some order.reject, none, col1, col_search, trades, best, best_opposite⟩
      | none =>
        ⟨none, none, col1, col_search, trades, best, best_opposite⟩
    else
      ⟨some order.reject, none, col1, col_search, trades, best, best_opposite⟩
  else if f price best || best == 0 then
    ⟨some order.ack, some (foldBest side (bucket ++ [order])),
      tinsert col1 price (bucket ++ [order]), col_search, trades, price, best_opposite⟩
  else
    ⟨some order.ack, none, tinsert col1 price (bucket ++ [order]),
      col_search, trades, best, best_opposite⟩

/-- The `OrderBook` state. -/
structure OrderBook where
  max_bid : Nat
  min_ask : Nat
  ticker : String
  asks : SideTable
  bids : SideTable
  trades : List Trade
  trade_active : Bool
deriving DecidableEq, Repr

/-- `OrderBook::new`. -/
def OrderBook.new (ticker : String) (trade_active : Bool) : OrderBook :=
  ⟨0, 0, ticker, [], [], [], trade_active⟩

/-- `OrderBook::new_order`: dispatch `new_order_logic` with the tables,
cached bests and crossing predicate of the given side. -/
def OrderBook.new_order (b : OrderBook) (side : Side) (order : Order) :
    (Option Response × Option Response) × OrderBook :=
  match side with
  | Side.Buy =>
    let r := new_order_logic b.bids b.asks b.trades b.max_bid b.min_ask order
      Side.Buy b.trade_active (fun a c => decide (c ≤ a))
    ((r.res1, r.res2),
      { b with bids := r.col_insert, asks := r.col_search, trades := r.trades,
               max_bid := r.best, min_ask := r.best_opposite })
  | Side.Sell =>
    let r := new_order_logic b.asks b.bids b.trades b.min_ask b.max_bid order
      Side.Sell b.trade_active (fun a c => decide (a ≤ c))
    ((r.res1, r.res2),
      { b with asks := r.col_insert, bids := r.col_search, trades := r.trades,
               min_ask := r.best, max_bid := r.best_opposite })

/-- Index of the first order of a bucket matching a `(user_id, order_id)`
pair. -/
def find_in_bucket : List Order → Nat → Nat → Option Nat
  | [], _, _ => none
  | o :: rest, uid, oid =>
      if o.user_id = uid ∧ o.order_id = oid then some 0
      else (find_in_bucket rest uid oid).map (· + 1)

/-- `OrderBook::get_order_index`: scan the table for the bucket and index
of the order with the given identifiers. -/
def get_order_index : SideTable → Nat → Nat → Option (Nat × Nat)
  | [], _, _ => none
  | (k, v) :: rest, uid, oid =>
      match find_in_bucket v uid oid with
      | some idx => some (k, idx)
      | none => get_order_index rest uid oid

/-- `OrderBook::cancel_order_logic`.  `none` models a panic: the
`unwrap` calls and the `[0]` indexing of the bucket at the recomputed
best price. -/
def cancel_order_logic (col : SideTable) (side : Side) (uid oid : Nat) (best : Nat) :
    Option ((Option Response × Option Response) × SideTable × Nat) :=
  match get_order_index col uid oid with
  | none => some ((some (Response.Reject uid oid), none), col, best)
  | some (price, idx) =>
    match tlookup col price with
    | none => none
    | some v =>
      if v.length = 1 then
        let col' := terase col price
        if price = best then
          match (match side with
                 | Side.Buy => listMax? (tkeys col')
                 | Side.Sell => listMin? (tkeys col')) with
          | some k =>
            match tlookup col' k with
            | none => none
            | some bucket =>
              match bucket.head? with
              | none => none
              | some o =>
                some ((some (Response.Acknowledge uid oid), some (o.best side)), col', k)
          | none =>
            some ((some (Response.Acknowledge uid oid),
                   some (Response.Best side.get_one_letter_string 0 0)), col', 0)
        else
          some ((some (Response.Acknowledge uid oid), none), col', best)
      else
        let v' := v.eraseIdx idx
        let col' := tinsert col price v'
        if price = best then
          match tlookup col' price with
          | none => none
          | some w =>
            match w.head? with
            | none => none
            | some o =>
              some ((some (Response.Acknowledge uid oid), some (o.best side)), col', best)
        else
          some ((some (Response.Acknowledge uid oid), none), col', best)

/-- `OrderBook::cancel_order`: try the asks side, and fall through to the
bids side unless the asks attempt produced an acknowledgement. -/
def OrderBook.cancel_order (b : OrderBook) (uid oid : Nat) :
    Option ((Option Response × Option Response) × OrderBook) :=
  match cancel_order_logic b.asks Side.Sell uid oid b.min_ask with
  | none => none
  | some (pair, asks', min') =>
    let b1 : OrderBook := { b with asks := asks', min_ask := min' }
    match pair with
    | (some a, some r2) => some ((some a, some r2), b1)
    | (some (Response.Acknowledge u o), none) =>
        some ((some (Response.Acknowledge u o), none), b1)
    | _ =>
      match cancel_order_logic b1.bids Side.Buy uid oid b1.max_bid with
      | none => none
      | some (pair2, bids', max') =>
          some (pair2, { b1 with bids := bids', max_bid := max' })

/-- `OrderBook::flush`: reset bests, clear the ticker and both tables.
The trade log and the `trade_active` flag are untouched. -/
def OrderBook.flush (b : OrderBook) : OrderBook :=
  { b with max_bid := 0, min_ask := 0, ticker := "", asks := [], bids := [] }

/-- `OrderBook::new_user_action`: the public dispatch over the action sum
type.  `none` models a panic inside cancellation. -/
def OrderBook.new_user_action (b : OrderBook) (action : UserAction) :
    Option ((Option Response × Option Response) × OrderBook) :=
  match action with
  | UserAction.NewOrder user_id _ price qty side order_id =>
      some (b.new_order (Side.new side) (Order.new user_id price qty order_id))
  | UserAction.CancelOrder user_id order_id => b.cancel_order user_id order_id
  | UserAction.Flush => some ((none, none), b.flush)

/-- Process a list of actions, stopping with `none` when a step panics. -/
def runActions : OrderBook → List UserAction → Option OrderBook
  | b, [] => some b
  | b, a :: rest =>
    match b.new_user_action a with
    | none => none
    | some (_, b') => runActions b' rest

/-- Process a list of actions and collect the response pair of each. -/
def run_with_responses :
    OrderBook → List UserAction → Option (OrderBook × List (Option Response × Option Response))
  | b, [] => some (b, [])
  | b, a :: rest =>
    match b.new_user_action a with
    | none => none
    | some (r, b') =>
      (run_with_responses b' rest).map (fun p => (p.1, r :: p.2))

/-- A well-formed action has a strictly positive price and quantity
(the spec's input contract). -/
def wf_action : UserAction → Bool
  | UserAction.NewOrder _ _ price qty _ _ => decide (0 < price) && decide (0 < qty)
  | _ => true

/-! ## Concrete evaluations refuting or witnessing individual claims -/

/-- Claim C1: the claim states that no empty bucket is ever retained.  The
code violates it: `new_order_logic` creates the insert-side bucket via
`entry(..).or_insert(vec![])` before classifying the order, so a crossing
sell that is rejected (trading off) leaves an empty bucket at its price in
the asks table. -/
theorem c1_empty_bucket_retained :
    (runActions (OrderBook.new "IBM" false)
      [UserAction.NewOrder 1 "IBM" 10 100 "B" 1,
       UserAction.NewOrder 2 "IBM" 10 100 "S" 2]).map (fun b => tlookup b.asks 10)
    = some (some []) := by decide

/-- Claim C2: the claim states that a crossing order finding no bucket at
its exact price on the opposite side is rejected, and that every
`NewOrder` yields a primary response.  The code violates both: the
`if let Some(val) = col_search.get_mut(..)` in `new_order_logic` has no
else branch, so such an order produces `(None, None)` and is silently
dropped. -/
theorem c2_crossing_order_dropped :
    (run_with_responses (OrderBook.new "IBM" true)
      [UserAction.NewOrder 1 "IBM" 12 100 "S" 2,
       UserAction.NewOrder 1 "IBM" 13 100 "B" 3]).map (fun p => p.2)
    = some [(some (Response.Acknowledge 1 2), some (Response.Best "S" 12 100)),
            (none, none)] := by decide

/-- Claim C3: the claim states that cancellation always terminates
normally with a response pair.  The code violates it: after two rejected
crossing orders have left empty buckets behind, cancelling the only real
bid makes the best-price recomputation pick an empty bucket's key, and the
`[0]` indexing of that bucket panics (modelled by `none`). -/
theorem c3_cancel_reaches_panic :
    runActions (OrderBook.new "IBM" false)
      [UserAction.NewOrder 1 "IBM" 10 100 "B" 1,
       UserAction.NewOrder 2 "IBM" 5 100 "S" 2,
       UserAction.NewOrder 1 "IBM" 11 100 "B" 3,
       UserAction.CancelOrder 1 1] = none := by decide

/-- Claim C4, counterexample: cancelling order `(1,2)` from the best-bid
bucket `[100, 60, 40]` leaves orders of quantities `100` and `40`, whose
aggregate is `140`, yet the emitted Best carries `100` — the quantity of
the first remaining order, not the aggregate. -/
theorem c4_counterexample :
    (run_with_responses (OrderBook.new "IBM" false)
      [UserAction.NewOrder 1 "IBM" 10 100 "B" 1,
       UserAction.NewOrder 1 "IBM" 10 60 "B" 2,
       UserAction.NewOrder 1 "IBM" 10 40 "B" 3,
       UserAction.CancelOrder 1 2]).map
        (fun p => (p.2.getLast?, tlookup p.1.bids 10))
    = some (some (some (Response.Acknowledge 1 2), some (Response.Best "B" 10 100)),
            some [Order.new 1 10 100 1, Order.new 1 10 40 3])
    ∧ sumQty [Order.new 1 10 100 1, Order.new 1 10 40 3] = 140
    ∧ Response.Best "B" 10 100 ≠ Response.Best "B" 10 140 := by decide

/-- Claim C5, counterexample: after a trade empties the only real bid
bucket, `max_bid` is recomputed over keys that include an empty bucket
left by a dropped crossing buy, yielding `max_bid = 15 ≥ min_ask = 12`
while real orders rest on both sides (a bid at 9, an ask at 12). -/
theorem c5_counterexample :
    (runActions (OrderBook.new "IBM" true)
      [UserAction.NewOrder 1 "IBM" 10 100 "B" 1,
       UserAction.NewOrder 1 "IBM" 12 100 "S" 2,
       UserAction.NewOrder 2 "IBM" 15 100 "B" 3,
       UserAction.NewOrder 2 "IBM" 10 100 "S" 4,
       UserAction.NewOrder 3 "IBM" 9 100 "B" 5]).map
        (fun b => (b.max_bid, b.min_ask, tlookup b.bids 9, tlookup b.asks 12))
    = some (15, 12, some [Order.new 3 9 100 5], some [Order.new 1 12 100 2])
    ∧ ¬ (15 < 12) := by decide

/-- Claim C8: a Flush returns `(absent, absent)` and leaves both side
tables empty, both cached bests at 0 and the ticker equal to the empty
string. -/
theorem c8_flush_resets_book (b : OrderBook) :
    b.new_user_action UserAction.Flush = some ((none, none), b.flush)
    ∧ (b.flush).asks = [] ∧ (b.flush).bids = []
    ∧ (b.flush).max_bid = 0 ∧ (b.flush).min_ask = 0
    ∧ (b.flush).ticker = "" :=
  ⟨rfl, rfl, rfl, rfl, rfl, rfl⟩

/-- Claim C9: a Flush leaves the trade log untouched: only the side
tables, the cached bests and the ticker are reset. -/
theorem c9_flush_preserves_trades (b : OrderBook) :
    (b.flush).trades = b.trades
    ∧ b.new_user_action UserAction.Flush = some ((none, none), b.flush) :=
  ⟨rfl, rfl⟩

/-- Claim C10: a side string is interpreted as Buy exactly when its first
character is `B`; every other string is a Sell, and the `NewOrder`
dispatch has no reject path for the side field — it always forwards to
`new_order` with the interpreted side. -/
theorem c10_side_buy_iff_starts_with_b (s : String) :
    (Side.new s = Side.Buy ↔ s.data.head? = some 'B')
    ∧ ∀ (b : OrderBook) (uid : Nat) (sym : String) (p q oid : Nat),
        b.new_user_action (UserAction.NewOrder uid sym p q s oid)
          = some (b.new_order (Side.new s) (Order.new uid p q oid)) := by
  refine ⟨?_, fun b uid sym p q oid => rfl⟩
  unfold Side.new
  by_cases h : s.data.head? = some 'B' <;> simp [h]

/-! ## Lemmas about the table and list operations -/

theorem tlookup_eq_some_mem {m : SideTable} {k : Nat} {v : List Order}
    (h : tlookup m k = some v) : (k, v) ∈ m := by
  induction m with
  | nil => simp [tlookup] at h
  | cons kv rest ih =>
    obtain ⟨k', v'⟩ := kv
    by_cases hk : k' = k
    · subst hk
      simp [tlookup] at h
      subst h
      exact List.mem_cons_self _ _
    · simp [tlookup, hk] at h
      exact List.mem_cons_of_mem _ (ih h)

theorem tlookup_some_ne_nil {m : SideTable} {k : Nat} {v : List Order}
    (h : tlookup m k = some v) : m ≠ [] := by
  intro he
  subst he
  simp [tlookup] at h

theorem mem_terase {kv : Nat × List Order} {m : SideTable} {k : Nat}
    (h : kv ∈ terase m k) : kv ∈ m := by
  induction m with
  | nil => simp [terase] at h
  | cons kv' rest ih =>
    obtain ⟨k', v'⟩ := kv'
    by_cases hk : k' = k
    · simp [terase, hk] at h
      exact List.mem_cons_of_mem _ (ih h)
    · simp [terase, hk] at h
      rcases h with h | h
      · exact h ▸ List.mem_cons_self _ _
      · exact List.mem_cons_of_mem _ (ih h)

theorem tlookup_terase_self (m : SideTable) (k : Nat) :
    tlookup (terase m k) k = none := by
  induction m with
  | nil => simp [terase, tlookup]
  | cons kv rest ih =>
    obtain ⟨k', v'⟩ := kv
    by_cases hk : k' = k
    · simp [terase, hk, ih]
    · simp [terase, tlookup, hk, ih]

theorem mem_tinsert {kv : Nat × List Order} {m : SideTable} {k : Nat} {v : List Order}
    (h : kv ∈ tinsert m k v) : kv = (k, v) ∨ kv ∈ m := by
  induction m with
  | nil =>
    simp [tinsert] at h
    exact Or.inl h
  | cons kv' rest ih =>
    obtain ⟨k', v'⟩ := kv'
    by_cases hk : k' = k
    · simp [tinsert, hk] at h
      rcases h with h | h
      · exact Or.inl h
      · exact Or.inr (List.mem_cons_of_mem _ h)
    · simp [tinsert, hk] at h
      rcases h with h | h
      · exact Or.inr (h ▸ List.mem_cons_self _ _)
      · rcases ih h with h' | h'
        · exact Or.inl h'
        · exact Or.inr (List.mem_cons_of_mem _ h')

theorem tlookup_tinsert_self (m : SideTable) (k : Nat) (v : List Order) :
    tlookup (tinsert m k v) k = some v := by
  induction m with
  | nil => simp [tinsert, tlookup]
  | cons kv rest ih =>
    obtain ⟨k', v'⟩ := kv
    by_cases hk : k' = k
    · simp [tinsert, tlookup, hk]
    · simp [tinsert, tlookup, hk, ih]

theorem mem_entry_or_insert {kv : Nat × List Order} {m : SideTable} {k : Nat}
    (h : kv ∈ entry_or_insert m k) : kv ∈ m ∨ kv = (k, []) := by
  unfold entry_or_insert at h
  rcases hl : tlookup m k with _ | v
  · rw [hl] at h
    rcases mem_tinsert h with h' | h'
    · exact Or.inr h'
    · exact Or.inl h'
  · rw [hl] at h
    exact Or.inl h

theorem tlookup_entry_or_insert_self (m : SideTable) (k : Nat) :
    tlookup (entry_or_insert m k) k = some ((tlookup m k).getD []) := by
  unfold entry_or_insert
  rcases hl : tlookup m k with _ | v
  · simp [tlookup_tinsert_self]
  · simp [hl]

theorem mem_tkeys_of_mem {kv : Nat × List Order} {m : SideTable} (h : kv ∈ m) :
    kv.1 ∈ tkeys m :=
  List.mem_map_of_mem _ h

theorem exists_of_mem_tkeys {k : Nat} {m : SideTable} (h : k ∈ tkeys m) :
    ∃ v, (k, v) ∈ m := by
  rcases List.mem_map.mp h with ⟨kv, hmem, hk⟩
  obtain ⟨a, b⟩ := kv
  exact ⟨b, by simpa [← hk] using hmem⟩

theorem listMin?_eq_none {l : List Nat} (h : listMin? l = none) : l = [] := by
  cases l with
  | nil => rfl
  | cons x xs => simp [listMin?] at h

theorem listMax?_eq_none {l : List Nat} (h : listMax? l = none) : l = [] := by
  cases l with
  | nil => rfl
  | cons x xs => simp [listMax?] at h

theorem listMin?_mem {l : List Nat} {y : Nat} (h : listMin? l = some y) : y ∈ l := by
  induction l generalizing y with
  | nil => simp [listMin?] at h
  | cons x xs ih =>
    rcases hx : listMin? xs with _ | m <;> simp [listMin?, hx] at h
    · subst h
      exact List.mem_cons_self _ _
    · subst h
      rcases le_total x m with hle | hle
      · rw [min_eq_left hle]
        exact List.mem_cons_self _ _
      · rw [min_eq_right hle]
        exact List.mem_cons_of_mem _ (ih hx)

theorem listMax?_mem {l : List Nat} {y : Nat} (h : listMax? l = some y) : y ∈ l := by
  induction l generalizing y with
  | nil => simp [listMax?] at h
  | cons x xs ih =>
    rcases hx : listMax? xs with _ | m <;> simp [listMax?, hx] at h
    · subst h
      exact List.mem_cons_self _ _
    · subst h
      rcases le_total x m with hle | hle
      · rw [max_eq_right hle]
        exact List.mem_cons_of_mem _ (ih hx)
      · rw [max_eq_left hle]
        exact List.mem_cons_self _ _

theorem listMin?_le {l : List Nat} {y : Nat} (h : listMin? l = some y) :
    ∀ x ∈ l, y ≤ x := by
  induction l generalizing y with
  | nil => simp [listMin?] at h
  | cons x xs ih =>
    rcases hx : listMin? xs with _ | m <;> simp [listMin?, hx] at h <;> subst h
    · have hxs := listMin?_eq_none hx
      subst hxs
      intro z hz
      simp at hz
      omega
    · intro z hz
      rcases List.mem_cons.mp hz with h' | h'
      · subst h'
        exact min_le_left _ _
      · exact le_trans (min_le_right _ _) (ih hx z h')

theorem listMax?_ge {l : List Nat} {y : Nat} (h : listMax? l = some y) :
    ∀ x ∈ l, x ≤ y := by
  induction l generalizing y with
  | nil => simp [listMax?] at h
  | cons x xs ih =>
    rcases hx : listMax? xs with _ | m <;> simp [listMax?, hx] at h <;> subst h
    · have hxs := listMax?_eq_none hx
      subst hxs
      intro z hz
      simp at hz
      omega
    · intro z hz
      rcases List.mem_cons.mp hz with h' | h'
      · subst h'
        exact le_max_left _ _
      · exact le_trans (ih hx z h') (le_max_right _ _)

theorem mem_eraseIdx {l : List Order} {i : Nat} {o : Order}
    (h : o ∈ l.eraseIdx i) : o ∈ l := by
  induction l generalizing i with
  | nil => simp [List.eraseIdx] at h
  | cons x xs ih =>
    cases i with
    | zero => exact List.mem_cons_of_mem _ (by simpa [List.eraseIdx] using h)
    | succ j =>
      simp [List.eraseIdx] at h
      rcases h with h | h
      · exact h ▸ List.mem_cons_self _ _
      · exact List.mem_cons_of_mem _ (ih h)

theorem findQtyMatch_spec {v : List Order} {q : Nat} {r : Order} {rem : List Order}
    (h : findQtyMatch v q = some (r, rem)) :
    r ∈ v ∧ r.qty = q ∧ (∀ o ∈ rem, o ∈ v) ∧ v ≠ [] := by
  induction v generalizing rem r with
  | nil => simp [findQtyMatch] at h
  | cons o rest ih =>
    by_cases hq : o.qty = q
    · simp [findQtyMatch, hq] at h
      obtain ⟨h1, h2⟩ := h
      subst h1
      subst h2
      exact ⟨List.mem_cons_self _ _, hq, fun o' ho' => List.mem_cons_of_mem _ ho',
        by simp⟩
    · rw [findQtyMatch] at h
      simp only [if_neg hq, Option.map_eq_some'] at h
      obtain ⟨p, hrec, hpair⟩ := h
      obtain ⟨r', rem'⟩ := p
      rw [Prod.mk.injEq] at hpair
      obtain ⟨h1, h2⟩ := hpair
      subst h1
      subst h2
      obtain ⟨hm, hqty, hsub, _⟩ := ih hrec
      refine ⟨List.mem_cons_of_mem _ hm, hqty, ?_, by simp⟩
      intro o' ho'
      rcases List.mem_cons.mp ho' with h' | h'
      · exact h' ▸ List.mem_cons_self _ _
      · exact List.mem_cons_of_mem _ (hsub o' h')

theorem foldBest_aux (s : String) (p q : Nat) (l : List Order) :
    l.foldl
      (fun acc o =>
        match acc with
        | Response.Best s' _ q' => Response.Best s' o.price (q' + o.qty)
        | _ => acc)
      (Response.Best s p q)
    = Response.Best s (l.foldl (fun _ o => o.price) p) (q + sumQty l) := by
  induction l generalizing p q with
  | nil => simp [sumQty]
  | cons o rest ih =>
    simp only [List.foldl_cons]
    rw [ih]
    simp [sumQty]
    omega

theorem foldBest_append (side : Side) (xs : List Order) (o : Order) :
    foldBest side (xs ++ [o])
    = Response.Best side.get_one_letter_string o.price (sumQty (xs ++ [o])) := by
  unfold foldBest
  rw [foldBest_aux]
  simp

/-! ## Side-indexed accessors used to state the per-side claims -/

/-- The crossing predicate passed to `new_order_logic` for each side:
`price >= best_opposite` for a Buy, `price <= best_opposite` for a Sell.
The same function is reused for the own-side at-or-better test. -/
def crossesF : Side → Nat → Nat → Bool
  | Side.Buy => fun p x => decide (x ≤ p)
  | Side.Sell => fun p x => decide (p ≤ x)

/-- The opposite-side table of a book, relative to an incoming side. -/
def oppTable (b : OrderBook) : Side → SideTable
  | Side.Buy => b.asks
  | Side.Sell => b.bids

/-- The opposite-side cached best, relative to an incoming side. -/
def oppBest (b : OrderBook) : Side → Nat
  | Side.Buy => b.min_ask
  | Side.Sell => b.max_bid

/-- The own-side table of a book, relative to an incoming side. -/
def ownTable (b : OrderBook) : Side → SideTable
  | Side.Buy => b.bids
  | Side.Sell => b.asks

/-- The own-side cached best, relative to an incoming side. -/
def ownBest (b : OrderBook) : Side → Nat
  | Side.Buy => b.max_bid
  | Side.Sell => b.min_ask

theorem isEmpty_false_of_ne_nil {α : Type _} {l : List α} (h : l ≠ []) :
    l.isEmpty = false := by
  cases l with
  | nil => exact absurd rfl h
  | cons x xs => rfl

/-- Claim C6: a crossing order under `trade_active` whose exact-price
opposite bucket holds an equal-quantity resting order trades against the
first such order: that order is removed from the bucket, the recorded
Trade's buyer is the Buy side of the pair, at the incoming price and the
matched quantity, and the response pair is (Ack incoming, Trade). -/
theorem c6_exact_qty_trade (b : OrderBook) (order : Order) (side : Side)
    (v : List Order) (resting : Order) (remaining : List Order)
    (hta : b.trade_active = true)
    (hcross : crossesF side order.price (oppBest b side) = true)
    (hbucket : tlookup (oppTable b side) order.price = some v)
    (hfind : findQtyMatch v order.qty = some (resting, remaining))
    (hprices : ∀ o ∈ v, o.price = order.price) :
    (b.new_order side order).1
      = (some (Response.Acknowledge order.user_id order.order_id),
         some (match side with
           | Side.Buy => Response.Trade order.user_id order.order_id
               resting.user_id resting.order_id order.price order.qty
           | Side.Sell => Response.Trade resting.user_id resting.order_id
               order.user_id order.order_id order.price order.qty))
    ∧ ((b.new_order side order).2).trades
        = b.trades ++ [match side with
            | Side.Buy => Trade.new order resting
            | Side.Sell => Trade.new resting order]
    ∧ tlookup (oppTable (b.new_order side order).2 side) order.price
        = (if remaining.isEmpty then none else some remaining) := by
  obtain ⟨hrmem, hrqty, -, -⟩ := findQtyMatch_spec hfind
  have hrprice : resting.price = order.price := hprices resting hrmem
  cases side with
  | Buy =>
    simp only [crossesF, oppBest] at hcross
    simp only [oppTable] at hbucket
    have hne : b.asks.isEmpty = false :=
      isEmpty_false_of_ne_nil (tlookup_some_ne_nil hbucket)
    simp only [OrderBook.new_order, new_order_logic, hcross, hne, hta, hbucket, hfind,
      Bool.not_false, Bool.and_true, if_true, oppTable]
    by_cases hrem : remaining.isEmpty
    · simp only [hrem, if_true]
      refine ⟨by trivial, by trivial, ?_⟩
      exact tlookup_terase_self _ _
    · simp only [hrem, if_false, Bool.false_eq_true]
      refine ⟨by trivial, by trivial, ?_⟩
      exact tlookup_tinsert_self _ _ _
  | Sell =>
    simp only [crossesF, oppBest] at hcross
    simp only [oppTable] at hbucket
    have hne : b.bids.isEmpty = false :=
      isEmpty_false_of_ne_nil (tlookup_some_ne_nil hbucket)
    simp only [OrderBook.new_order, new_order_logic, hcross, hne, hta, hbucket, hfind,
      Bool.not_false, Bool.and_true, if_true, oppTable]
    by_cases hrem : remaining.isEmpty
    · simp only [hrem, if_true]
      refine ⟨?_, by trivial, ?_⟩
      · simp [Order.ack, Trade.get_trade_response, Trade.new, hrqty, hrprice]
      · exact tlookup_terase_self _ _
    · simp only [hrem, if_false, Bool.false_eq_true]
      refine ⟨?_, by trivial, ?_⟩
      · simp [Order.ack, Trade.get_trade_response, Trade.new, hrqty, hrprice]
      · exact tlookup_tinsert_self _ _ _

/-- Claim C6 witness at a concrete input: a buy at 12 lifts the resting
sell `(1,2)` of equal quantity. -/
theorem c6_witness :
    ((⟨10, 12, "IBM", [(12, [Order.new 1 12 100 2])],
       [(10, [Order.new 1 10 100 1])], [], true⟩ : OrderBook).trade_active = true)
    ∧ ((⟨10, 12, "IBM", [(12, [Order.new 1 12 100 2])],
         [(10, [Order.new 1 10 100 1])], [], true⟩ : OrderBook).new_order Side.Buy
           (Order.new 1 12 100 103)).1
        = (some (Response.Acknowledge 1 103), some (Response.Trade 1 103 1 2 12 100)) := by
  constructor
  · rfl
  · have h := c6_exact_qty_trade
      (⟨10, 12, "IBM", [(12, [Order.new 1 12 100 2])],
        [(10, [Order.new 1 10 100 1])], [], true⟩ : OrderBook)
      (Order.new 1 12 100 103) Side.Buy
      [Order.new 1 12 100 2] (Order.new 1 12 100 2) []
      (by decide) (by decide) (by decide) (by decide) (by decide)
    exact h.1

/-- Claim C7: an order that rests at or better than its own side's cached
best (own best 0, or at-or-better per side) without crossing is
acknowledged with a Best secondary carrying the side letter, the price of
the bucket just written, and the sum of the quantities of all orders in
that bucket after insertion (including the deepening case). -/
theorem c7_rest_best_aggregate_qty (b : OrderBook) (order : Order) (side : Side)
    (hnc : (crossesF side order.price (oppBest b side)
            && !(oppTable b side).isEmpty) = false)
    (hbest : crossesF side order.price (ownBest b side) = true ∨ ownBest b side = 0) :
    (b.new_order side order).1
      = (some (Response.Acknowledge order.user_id order.order_id),
         some (Response.Best side.get_one_letter_string order.price
           (sumQty (((tlookup (ownTable b side) order.price).getD []) ++ [order]))))
    ∧ tlookup (ownTable (b.new_order side order).2 side) order.price
        = some (((tlookup (ownTable b side) order.price).getD []) ++ [order])
    ∧ ownBest (b.new_order side order).2 side = order.price := by
  have hor : ∀ x : Nat, (crossesF side order.price x = true ∨ x = 0) →
      (crossesF side order.price x || (x == 0)) = true := by
    intro x hx
    rcases hx with hx | hx
    · simp [hx]
    · simp [hx]
  cases side with
  | Buy =>
    simp only [crossesF, oppBest, oppTable] at hnc
    have hb := hor _ hbest
    simp only [crossesF, ownBest] at hb
    simp only [OrderBook.new_order, new_order_logic, hnc, hb, if_false, if_true,
      Bool.false_eq_true, ownTable, ownBest, oppTable]
    rw [tlookup_entry_or_insert_self]
    simp only [Option.getD_some]
    refine ⟨?_, ?_, by trivial⟩
    · rw [foldBest_append]
      simp [Order.ack]
    · exact tlookup_tinsert_self _ _ _
  | Sell =>
    simp only [crossesF, oppBest, oppTable] at hnc
    have hb := hor _ hbest
    simp only [crossesF, ownBest] at hb
    simp only [OrderBook.new_order, new_order_logic, hnc, hb, if_false, if_true,
      Bool.false_eq_true, ownTable, ownBest, oppTable]
    rw [tlookup_entry_or_insert_self]
    simp only [Option.getD_some]
    refine ⟨?_, ?_, by trivial⟩
    · rw [foldBest_append]
      simp [Order.ack]
    · exact tlookup_tinsert_self _ _ _

/-- Claim C7 witness at a concrete input: a buy at the existing best
price 10 deepens the top of book and the Best reports the aggregate 160. -/
theorem c7_witness :
    ((crossesF Side.Buy 10 (oppBest (⟨10, 0, "IBM", [],
        [(10, [Order.new 1 10 100 1])], [], false⟩ : OrderBook) Side.Buy)
      && !(oppTable (⟨10, 0, "IBM", [],
        [(10, [Order.new 1 10 100 1])], [], false⟩ : OrderBook) Side.Buy).isEmpty) = false)
    ∧ ((⟨10, 0, "IBM", [], [(10, [Order.new 1 10 100 1])], [], false⟩ : OrderBook).new_order
         Side.Buy (Order.new 2 10 60 2)).1
        = (some (Response.Acknowledge 2 2), some (Response.Best "B" 10 160)) := by
  constructor
  · decide
  · have h := c7_rest_best_aggregate_qty
      (⟨10, 0, "IBM", [], [(10, [Order.new 1 10 100 1])], [], false⟩ : OrderBook)
      (Order.new 2 10 60 2) Side.Buy (by decide) (Or.inl (by decide))
    exact h.1.trans (by decide)

theorem sumQty_eq_zero_iff {l : List Order} (h : ∀ o ∈ l, 0 < o.qty) :
    sumQty l = 0 ↔ l = [] := by
  cases l with
  | nil => simp [sumQty]
  | cons x xs =>
    have hx := h x (List.mem_cons_self _ _)
    simp [sumQty]
    omega

/-- Claim C4 (amended): whenever a cancellation completes and emits a Best
secondary with a non-zero price, that secondary carries the price and the
quantity of the first (oldest) order of the bucket resting at the reported
price in the resulting table — which equals the bucket's aggregate
quantity exactly when that bucket holds a single order. -/
theorem c4_amended_best_reports_head
    (col : SideTable) (side : Side) (uid oid best : Nat)
    (r : (Option Response × Option Response) × SideTable × Nat)
    (s : String) (p q : Nat)
    (hconsist : ∀ kv ∈ col, ∀ o ∈ kv.2, o.price = kv.1)
    (hqty : ∀ kv ∈ col, ∀ o ∈ kv.2, 0 < o.qty)
    (hres : cancel_order_logic col side uid oid best = some r)
    (hsec : r.1.2 = some (Response.Best s p q))
    (hp : 0 < p) :
    ∃ o0 rest, tlookup r.2.1 p = some (o0 :: rest)
      ∧ q = o0.qty ∧ p = o0.price
      ∧ (q = sumQty (o0 :: rest) ↔ rest = []) := by
  rcases hgo : get_order_index col uid oid with _ | ⟨price, idx⟩
  · simp only [cancel_order_logic, hgo] at hres
    obtain rfl := Option.some.inj hres
    simp at hsec
  · simp only [cancel_order_logic, hgo] at hres
    rcases hv : tlookup col price with _ | v
    · simp only [hv] at hres
      exact Option.noConfusion hres
    · simp only [hv] at hres
      have hvmem : (price, v) ∈ col := tlookup_eq_some_mem hv
      by_cases hlen : v.length = 1
      · rw [if_pos hlen] at hres
        by_cases hpb : price = best
        · rw [if_pos hpb] at hres
          cases side with
          | Buy =>
            rcases hnb : listMax? (tkeys (terase col price)) with _ | k
            · simp only [hnb] at hres
              obtain rfl := Option.some.inj hres
              simp only [Side.get_one_letter_string] at hsec
              rw [Option.some.injEq, Response.Best.injEq] at hsec
              omega
            · simp only [hnb] at hres
              rcases hkb : tlookup (terase col price) k with _ | bucket
              · simp only [hkb] at hres
                exact Option.noConfusion hres
              · simp only [hkb] at hres
                cases bucket with
                | nil => simp at hres
                | cons o xs =>
                  simp only [List.head?_cons] at hres
                  obtain rfl := Option.some.inj hres
                  simp only [Order.best] at hsec
                  rw [Option.some.injEq, Response.Best.injEq] at hsec
                  obtain ⟨hs, hpo, hqo⟩ := hsec
                  have hmem : (k, o :: xs) ∈ col := mem_terase (tlookup_eq_some_mem hkb)
                  have hok : o.price = k := hconsist _ hmem o (List.mem_cons_self _ _)
                  refine ⟨o, xs, ?_, hqo.symm, hpo.symm, ?_⟩
                  · rw [← hpo, hok, hkb]
                  · rw [← hqo]
                    have hpos : ∀ o' ∈ xs, 0 < o'.qty := fun o' ho' =>
                      hqty _ hmem o' (List.mem_cons_of_mem _ ho')
                    have hz := sumQty_eq_zero_iff hpos
                    simp only [sumQty, List.map_cons, List.sum_cons] at hz ⊢
                    constructor
                    · intro he
                      exact hz.mp (by omega)
                    · intro he
                      subst he
                      simp
          | Sell =>
            rcases hnb : listMin? (tkeys (terase col price)) with _ | k
            · simp only [hnb] at hres
              obtain rfl := Option.some.inj hres
              simp only [Side.get_one_letter_string] at hsec
              rw [Option.some.injEq, Response.Best.injEq] at hsec
              omega
            · simp only [hnb] at hres
              rcases hkb : tlookup (terase col price) k with _ | bucket
              · simp only [hkb] at hres
                exact Option.noConfusion hres
              · simp only [hkb] at hres
                cases bucket with
                | nil => simp at hres
                | cons o xs =>
                  simp only [List.head?_cons] at hres
                  obtain rfl := Option.some.inj hres
                  simp only [Order.best] at hsec
                  rw [Option.some.injEq, Response.Best.injEq] at hsec
                  obtain ⟨hs, hpo, hqo⟩ := hsec
                  have hmem : (k, o :: xs) ∈ col := mem_terase (tlookup_eq_some_mem hkb)
                  have hok : o.price = k := hconsist _ hmem o (List.mem_cons_self _ _)
                  refine ⟨o, xs, ?_, hqo.symm, hpo.symm, ?_⟩
                  · rw [← hpo, hok, hkb]
                  · rw [← hqo]
                    have hpos : ∀ o' ∈ xs, 0 < o'.qty := fun o' ho' =>
                      hqty _ hmem o' (List.mem_cons_of_mem _ ho')
                    have hz := sumQty_eq_zero_iff hpos
                    simp only [sumQty, List.map_cons, List.sum_cons] at hz ⊢
                    constructor
                    · intro he
                      exact hz.mp (by omega)
                    · intro he
                      subst he
                      simp
        · rw [if_neg hpb] at hres
          obtain rfl := Option.some.inj hres
          simp at hsec
      · rw [if_neg hlen] at hres
        by_cases hpb : price = best
        · rw [if_pos hpb] at hres
          simp only [tlookup_tinsert_self] at hres
          rcases hvi : v.eraseIdx idx with _ | ⟨o, xs⟩
          · simp only [hvi, List.head?_nil] at hres
            exact Option.noConfusion hres
          · simp only [hvi, List.head?_cons] at hres
            obtain rfl := Option.some.inj hres
            have homem : o ∈ v := mem_eraseIdx (hvi ▸ List.mem_cons_self o xs)
            have hop : o.price = price := hconsist _ hvmem o homem
            cases side with
            | Buy =>
              simp only [Order.best] at hsec
              rw [Option.some.injEq, Response.Best.injEq] at hsec
              obtain ⟨hs, hpo, hqo⟩ := hsec
              refine ⟨o, xs, ?_, hqo.symm, hpo.symm, ?_⟩
              · rw [← hpo, hop, tlookup_tinsert_self]
              · rw [← hqo]
                have hpos : ∀ o' ∈ xs, 0 < o'.qty := fun o' ho' =>
                  hqty _ hvmem o' (mem_eraseIdx (hvi ▸ List.mem_cons_of_mem o ho'))
                have hz := sumQty_eq_zero_iff hpos
                simp only [sumQty, List.map_cons, List.sum_cons] at hz ⊢
                constructor
                · intro he
                  exact hz.mp (by omega)
                · intro he
                  subst he
                  simp
            | Sell =>
              simp only [Order.best] at hsec
              rw [Option.some.injEq, Response.Best.injEq] at hsec
              obtain ⟨hs, hpo, hqo⟩ := hsec
              refine ⟨o, xs, ?_, hqo.symm, hpo.symm, ?_⟩
              · rw [← hpo, hop, tlookup_tinsert_self]
              · rw [← hqo]
                have hpos : ∀ o' ∈ xs, 0 < o'.qty := fun o' ho' =>
                  hqty _ hvmem o' (mem_eraseIdx (hvi ▸ List.mem_cons_of_mem o ho'))
                have hz := sumQty_eq_zero_iff hpos
                simp only [sumQty, List.map_cons, List.sum_cons] at hz ⊢
                constructor
                · intro he
                  exact hz.mp (by omega)
                · intro he
                  subst he
                  simp
        · rw [if_neg hpb] at hres
          obtain rfl := Option.some.inj hres
          simp at hsec

/-- Claim C4 witness at a concrete input: cancelling the middle order of
the best-bid bucket `[100, 60, 40]` reports the head quantity 100, and
100 differs from the aggregate since two orders remain. -/
theorem c4_amended_witness :
    (∀ kv ∈ ([(10, [Order.new 1 10 100 1, Order.new 1 10 60 2, Order.new 1 10 40 3])] :
        SideTable), ∀ o ∈ kv.2, o.price = kv.1)
    ∧ cancel_order_logic
        [(10, [Order.new 1 10 100 1, Order.new 1 10 60 2, Order.new 1 10 40 3])]
        Side.Buy 1 2 10
      = some ((some (Response.Acknowledge 1 2), some (Response.Best "B" 10 100)),
              [(10, [Order.new 1 10 100 1, Order.new 1 10 40 3])], 10)
    ∧ (∃ o0 rest,
        tlookup (((some (Response.Acknowledge 1 2), some (Response.Best "B" 10 100)),
          ([(10, [Order.new 1 10 100 1, Order.new 1 10 40 3])] : SideTable),
          10) : (Option Response × Option Response) × SideTable × Nat).2.1 10
          = some (o0 :: rest)
        ∧ 100 = o0.qty ∧ 10 = o0.price
        ∧ (100 = sumQty (o0 :: rest) ↔ rest = [])) := by
  refine ⟨by decide, by decide, ?_⟩
  exact c4_amended_best_reports_head
    [(10, [Order.new 1 10 100 1, Order.new 1 10 60 2, Order.new 1 10 40 3])]
    Side.Buy 1 2 10
    ((some (Response.Acknowledge 1 2), some (Response.Best "B" 10 100)),
      [(10, [Order.new 1 10 100 1, Order.new 1 10 40 3])], 10)
    "B" 10 100
    (by decide) (by decide) (by decide) (by decide) (by decide)

/-! ## The inductive invariant behind the non-crossing property -/

/-- Every bucket of the table holds only orders priced at its key, and
every key is strictly positive. -/
def SideOk (m : SideTable) : Prop :=
  ∀ kv ∈ m, (∀ o ∈ kv.2, o.price = kv.1) ∧ 0 < kv.1

/-- The cached bid best bounds every non-empty bid bucket's key from
above and is positive whenever a non-empty bucket exists. -/
def BidsBest (m : SideTable) (best : Nat) : Prop :=
  ∀ kv ∈ m, kv.2 ≠ [] → kv.1 ≤ best ∧ 0 < best

/-- The cached ask best bounds every non-empty ask bucket's key from
below and is positive whenever a non-empty bucket exists. -/
def AsksBest (m : SideTable) (best : Nat) : Prop :=
  ∀ kv ∈ m, kv.2 ≠ [] → best ≤ kv.1 ∧ 0 < best

/-- Every non-empty bid bucket's key is strictly below every non-empty
ask bucket's key. -/
def NoCrossKeys (bids asks : SideTable) : Prop :=
  ∀ kv ∈ bids, kv.2 ≠ [] → ∀ kv' ∈ asks, kv'.2 ≠ [] → kv.1 < kv'.1

/-- The inductive invariant preserved by every successful action. -/
def BookInv (b : OrderBook) : Prop :=
  SideOk b.bids ∧ SideOk b.asks ∧ BidsBest b.bids b.max_bid
    ∧ AsksBest b.asks b.min_ask ∧ NoCrossKeys b.bids b.asks

theorem listMin?_of_mem {l : List Nat} {x : Nat} (hx : x ∈ l) :
    ∃ y, listMin? l = some y ∧ y ≤ x := by
  cases l with
  | nil => simp at hx
  | cons a t =>
    have hy : listMin? (a :: t)
        = some (match listMin? t with | none => a | some m => min a m) := rfl
    exact ⟨_, hy, listMin?_le hy x hx⟩

theorem listMax?_of_mem {l : List Nat} {x : Nat} (hx : x ∈ l) :
    ∃ y, listMax? l = some y ∧ x ≤ y := by
  cases l with
  | nil => simp at hx
  | cons a t =>
    have hy : listMax? (a :: t)
        = some (match listMax? t with | none => a | some m => max a m) := rfl
    exact ⟨_, hy, listMax?_ge hy x hx⟩

theorem new_order_logic_inv_buy
    (bids asks : SideTable) (trades : List Trade) (max_bid min_ask : Nat)
    (order : Order) (ta : Bool) (r : NewOrderOutcome)
    (h1 : SideOk bids) (h2 : SideOk asks)
    (h3 : BidsBest bids max_bid) (h4 : AsksBest asks min_ask)
    (h5 : NoCrossKeys bids asks) (hp : 0 < order.price)
    (hr : new_order_logic bids asks trades max_bid min_ask order Side.Buy ta
        (fun a c => decide (c ≤ a)) = r) :
    SideOk r.col_insert ∧ SideOk r.col_search ∧ BidsBest r.col_insert r.best
      ∧ AsksBest r.col_search r.best_opposite
      ∧ NoCrossKeys r.col_insert r.col_search := by
  have hA1 : SideOk (entry_or_insert bids order.price) := by
    intro kv hkv
    rcases mem_entry_or_insert hkv with h | h
    · exact h1 kv h
    · subst h
      exact ⟨fun o ho => absurd ho (by simp), hp⟩
  have hA2 : ∀ kv ∈ entry_or_insert bids order.price, kv.2 ≠ [] → kv ∈ bids := by
    intro kv hkv hne
    rcases mem_entry_or_insert hkv with h | h
    · exact h
    · subst h
      exact absurd rfl hne
  have hB1 : BidsBest (entry_or_insert bids order.price) max_bid :=
    fun kv hkv hne => h3 kv (hA2 kv hkv hne) hne
  have hN1 : NoCrossKeys (entry_or_insert bids order.price) asks :=
    fun kv hkv hne kv' hkv' hne' => h5 kv (hA2 kv hkv hne) hne kv' hkv' hne'
  simp only [new_order_logic] at hr
  by_cases hcr : (decide (min_ask ≤ order.price) && !asks.isEmpty) = true
  · rw [if_pos hcr] at hr
    cases ta with
    | false =>
      rw [if_neg (by simp)] at hr
      subst hr
      exact ⟨hA1, h2, hB1, h4, hN1⟩
    | true =>
      rw [if_pos rfl] at hr
      rcases hval : tlookup asks order.price with _ | val
      · simp only [hval] at hr
        subst hr
        exact ⟨hA1, h2, hB1, h4, hN1⟩
      · simp only [hval] at hr
        rcases hfm : findQtyMatch val order.qty with _ | ⟨resting, remaining⟩
        · simp only [hfm] at hr
          subst hr
          exact ⟨hA1, h2, hB1, h4, hN1⟩
        · simp only [hfm] at hr
          have hvmem : (order.price, val) ∈ asks := tlookup_eq_some_mem hval
          have hvne : val ≠ [] := (findQtyMatch_spec hfm).2.2.2
          have hremsub : ∀ o ∈ remaining, o ∈ val := (findQtyMatch_spec hfm).2.2.1
          by_cases hre : remaining.isEmpty = true
          · rw [if_pos hre] at hr
            subst hr
            refine ⟨hA1, ?_, hB1, ?_, ?_⟩
            · intro kv hkv
              exact h2 kv (mem_terase hkv)
            · intro kv hkv hne
              obtain ⟨y, hy, hyle⟩ := listMin?_of_mem (mem_tkeys_of_mem hkv)
              rw [hy]
              simp only [Option.getD_some]
              refine ⟨hyle, ?_⟩
              obtain ⟨w, hw⟩ := exists_of_mem_tkeys (listMin?_mem hy)
              exact (h2 _ (mem_terase hw)).2
            · intro kv hkv hne kv' hkv' hne'
              exact h5 kv (hA2 kv hkv hne) hne kv' (mem_terase hkv') hne'
          · rw [if_neg hre] at hr
            subst hr
            refine ⟨hA1, ?_, hB1, ?_, ?_⟩
            · intro kv hkv
              rcases mem_tinsert hkv with h | h
              · subst h
                exact ⟨fun o ho => (h2 _ hvmem).1 o (hremsub o ho), hp⟩
              · exact h2 kv h
            · intro kv hkv hne
              rcases mem_tinsert hkv with h | h
              · subst h
                exact h4 (order.price, val) hvmem hvne
              · exact h4 kv h hne
            · intro kv hkv hne kv' hkv' hne'
              rcases mem_tinsert hkv' with h | h
              · subst h
                exact h5 kv (hA2 kv hkv hne) hne (order.price, val) hvmem hvne
              · exact h5 kv (hA2 kv hkv hne) hne kv' h hne'
  · rw [if_neg hcr] at hr
    have hSins : SideOk (tinsert (entry_or_insert bids order.price) order.price
        (((tlookup (entry_or_insert bids order.price) order.price).getD []) ++ [order])) := by
      intro kv hkv
      rcases mem_tinsert hkv with h | h
      · subst h
        refine ⟨?_, hp⟩
        intro o ho
        rcases List.mem_append.mp ho with ho' | ho'
        · rw [tlookup_entry_or_insert_self] at ho'
          simp only [Option.getD_some] at ho'
          rcases hlk : tlookup bids order.price with _ | v0
          · rw [hlk] at ho'
            simp at ho'
          · rw [hlk] at ho'
            simp only [Option.getD_some] at ho'
            exact (h1 _ (tlookup_eq_some_mem hlk)).1 o ho'
        · simp at ho'
          subst ho'
          rfl
      · exact hA1 kv h
    have hNins : NoCrossKeys (tinsert (entry_or_insert bids order.price) order.price
        (((tlookup (entry_or_insert bids order.price) order.price).getD []) ++ [order]))
        asks := by
      intro kv hkv hne kv' hkv' hne'
      rcases mem_tinsert hkv with h | h
      · subst h
        have hemp : asks.isEmpty = false :=
          isEmpty_false_of_ne_nil (List.ne_nil_of_mem hkv')
        simp only [hemp, Bool.not_false, Bool.and_true, decide_eq_true_eq] at hcr
        exact lt_of_lt_of_le (Nat.lt_of_not_le hcr) (h4 kv' hkv' hne').1
      · exact h5 kv (hA2 kv h hne) hne kv' hkv' hne'
    by_cases hb2 : (decide (max_bid ≤ order.price) || (max_bid == 0)) = true
    · rw [if_pos hb2] at hr
      subst hr
      refine ⟨hSins, h2, ?_, h4, hNins⟩
      intro kv hkv hne
      rcases mem_tinsert hkv with h | h
      · subst h
        exact ⟨le_refl _, hp⟩
      · have hold := h3 kv (hA2 kv h hne) hne
        simp only [Bool.or_eq_true, decide_eq_true_eq, beq_iff_eq] at hb2
        rcases hb2 with hb2 | hb2
        · exact ⟨le_trans hold.1 hb2, hp⟩
        · rw [hb2] at hold
          exact absurd hold.2 (by simp)
    · rw [if_neg hb2] at hr
      subst hr
      refine ⟨hSins, h2, ?_, h4, hNins⟩
      intro kv hkv hne
      simp only [Bool.or_eq_true, decide_eq_true_eq, beq_iff_eq, not_or] at hb2
      rcases mem_tinsert hkv with h | h
      · subst h
        exact ⟨le_of_not_le hb2.1, Nat.pos_of_ne_zero hb2.2⟩
      · exact h3 kv (hA2 kv h hne) hne

theorem new_order_logic_inv_sell
    (bids asks : SideTable) (trades : List Trade) (max_bid min_ask : Nat)
    (order : Order) (ta : Bool) (r : NewOrderOutcome)
    (h1 : SideOk bids) (h2 : SideOk asks)
    (h3 : BidsBest bids max_bid) (h4 : AsksBest asks min_ask)
    (h5 : NoCrossKeys bids asks) (hp : 0 < order.price)
    (hr : new_order_logic asks bids trades min_ask max_bid order Side.Sell ta
        (fun a c => decide (a ≤ c)) = r) :
    SideOk r.col_insert ∧ SideOk r.col_search ∧ AsksBest r.col_insert r.best
      ∧ BidsBest r.col_search r.best_opposite
      ∧ NoCrossKeys r.col_search r.col_insert := by
  have hA1 : SideOk (entry_or_insert asks order.price) := by
    intro kv hkv
    rcases mem_entry_or_insert hkv with h | h
    · exact h2 kv h
    · subst h
      exact ⟨fun o ho => absurd ho (by simp), hp⟩
  have hA2 : ∀ kv ∈ entry_or_insert asks order.price, kv.2 ≠ [] → kv ∈ asks := by
    intro kv hkv hne
    rcases mem_entry_or_insert hkv with h | h
    · exact h
    · subst h
      exact absurd rfl hne
  have hB1 : AsksBest (entry_or_insert asks order.price) min_ask :=
    fun kv hkv hne => h4 kv (hA2 kv hkv hne) hne
  have hN1 : NoCrossKeys bids (entry_or_insert asks order.price) :=
    fun kv hkv hne kv' hkv' hne' => h5 kv hkv hne kv' (hA2 kv' hkv' hne') hne'
  simp only [new_order_logic] at hr
  by_cases hcr : (decide (order.price ≤ max_bid) && !bids.isEmpty) = true
  · rw [if_pos hcr] at hr
    cases ta with
    | false =>
      rw [if_neg (by simp)] at hr
      subst hr
      exact ⟨hA1, h1, hB1, h3, hN1⟩
    | true =>
      rw [if_pos rfl] at hr
      rcases hval : tlookup bids order.price with _ | val
      · simp only [hval] at hr
        subst hr
        exact ⟨hA1, h1, hB1, h3, hN1⟩
      · simp only [hval] at hr
        rcases hfm : findQtyMatch val order.qty with _ | ⟨resting, remaining⟩
        · simp only [hfm] at hr
          subst hr
          exact ⟨hA1, h1, hB1, h3, hN1⟩
        · simp only [hfm] at hr
          have hvmem : (order.price, val) ∈ bids := tlookup_eq_some_mem hval
          have hvne : val ≠ [] := (findQtyMatch_spec hfm).2.2.2
          have hremsub : ∀ o ∈ remaining, o ∈ val := (findQtyMatch_spec hfm).2.2.1
          by_cases hre : remaining.isEmpty = true
          · rw [if_pos hre] at hr
            subst hr
            refine ⟨hA1, ?_, hB1, ?_, ?_⟩
            · intro kv hkv
              exact h1 kv (mem_terase hkv)
            · intro kv hkv hne
              obtain ⟨y, hy, hyle⟩ := listMax?_of_mem (mem_tkeys_of_mem hkv)
              rw [hy]
              simp only [Option.getD_some]
              refine ⟨hyle, ?_⟩
              obtain ⟨w, hw⟩ := exists_of_mem_tkeys (listMax?_mem hy)
              exact (h1 _ (mem_terase hw)).2
            · intro kv hkv hne kv' hkv' hne'
              exact h5 kv (mem_terase hkv) hne kv' (hA2 kv' hkv' hne') hne'
          · rw [if_neg hre] at hr
            subst hr
            refine ⟨hA1, ?_, hB1, ?_, ?_⟩
            · intro kv hkv
              rcases mem_tinsert hkv with h | h
              · subst h
                exact ⟨fun o ho => (h1 _ hvmem).1 o (hremsub o ho), hp⟩
              · exact h1 kv h
            · intro kv hkv hne
              rcases mem_tinsert hkv with h | h
              · subst h
                exact h3 (order.price, val) hvmem hvne
              · exact h3 kv h hne
            · intro kv hkv hne kv' hkv' hne'
              rcases mem_tinsert hkv with h | h
              · subst h
                exact h5 (order.price, val) hvmem hvne kv' (hA2 kv' hkv' hne') hne'
              · exact h5 kv h hne kv' (hA2 kv' hkv' hne') hne'
  · rw [if_neg hcr] at hr
    have hSins : SideOk (tinsert (entry_or_insert asks order.price) order.price
        (((tlookup (entry_or_insert asks order.price) order.price).getD []) ++ [order])) := by
      intro kv hkv
      rcases mem_tinsert hkv with h | h
      · subst h
        refine ⟨?_, hp⟩
        intro o ho
        rcases List.mem_append.mp ho with ho' | ho'
        · rw [tlookup_entry_or_insert_self] at ho'
          simp only [Option.getD_some] at ho'
          rcases hlk : tlookup asks order.price with _ | v0
          · rw [hlk] at ho'
            simp at ho'
          · rw [hlk] at ho'
            simp only [Option.getD_some] at ho'
            exact (h2 _ (tlookup_eq_some_mem hlk)).1 o ho'
        · simp at ho'
          subst ho'
          rfl
      · exact hA1 kv h
    have hNins : NoCrossKeys bids (tinsert (entry_or_insert asks order.price) order.price
        (((tlookup (entry_or_insert asks order.price) order.price).getD []) ++ [order])) := by
      intro kv hkv hne kv' hkv' hne'
      rcases mem_tinsert hkv' with h | h
      · subst h
        have hemp : bids.isEmpty = false :=
          isEmpty_false_of_ne_nil (List.ne_nil_of_mem hkv)
        simp only [hemp, Bool.not_false, Bool.and_true, decide_eq_true_eq] at hcr
        exact lt_of_le_of_lt (h3 kv hkv hne).1 (Nat.lt_of_not_le hcr)
      · exact h5 kv hkv hne kv' (hA2 kv' h hne') hne'
    by_cases hb2 : (decide (order.price ≤ min_ask) || (min_ask == 0)) = true
    · rw [if_pos hb2] at hr
      subst hr
      refine ⟨hSins, h1, ?_, h3, hNins⟩
      intro kv hkv hne
      rcases mem_tinsert hkv with h | h
      · subst h
        exact ⟨le_refl _, hp⟩
      · have hold := h4 kv (hA2 kv h hne) hne
        simp only [Bool.or_eq_true, decide_eq_true_eq, beq_iff_eq] at hb2
        rcases hb2 with hb2 | hb2
        · exact ⟨le_trans hb2 hold.1, hp⟩
        · rw [hb2] at hold
          exact absurd hold.2 (by simp)
    · rw [if_neg hb2] at hr
      subst hr
      refine ⟨hSins, h1, ?_, h3, hNins⟩
      intro kv hkv hne
      simp only [Bool.or_eq_true, decide_eq_true_eq, beq_iff_eq, not_or] at hb2
      rcases mem_tinsert hkv with h | h
      · subst h
        exact ⟨le_of_not_le hb2.1, Nat.pos_of_ne_zero hb2.2⟩
      · exact h4 kv (hA2 kv h hne) hne

theorem triple_inv {α β γ : Type _} {a : α} {b : β} {c : γ} {x : α × β × γ}
    (h : some (a, b, c) = some x) : a = x.1 ∧ b = x.2.1 ∧ c = x.2.2 := by
  cases Option.some.inj h
  exact ⟨rfl, rfl, rfl⟩

theorem cancel_logic_inv_sell
    (col : SideTable) (uid oid best : Nat)
    (pair : Option Response × Option Response) (col' : SideTable) (best' : Nat)
    (h2 : SideOk col) (h4 : AsksBest col best)
    (hres : cancel_order_logic col Side.Sell uid oid best = some (pair, col', best')) :
    SideOk col' ∧ AsksBest col' best'
      ∧ ∀ kv ∈ col', kv.2 ≠ [] → ∃ w, (kv.1, w) ∈ col ∧ w ≠ [] := by
  rcases hgo : get_order_index col uid oid with _ | ⟨price, idx⟩
  · simp only [cancel_order_logic, hgo] at hres
    obtain ⟨hpair, hcol, hbest⟩ := triple_inv hres
    subst hcol
    subst hbest
    exact ⟨h2, h4, fun kv hkv hne => ⟨kv.2, hkv, hne⟩⟩
  · simp only [cancel_order_logic, hgo] at hres
    rcases hv : tlookup col price with _ | v
    · simp only [hv] at hres
      exact Option.noConfusion hres
    · simp only [hv] at hres
      have hvmem : (price, v) ∈ col := tlookup_eq_some_mem hv
      by_cases hlen : v.length = 1
      · rw [if_pos hlen] at hres
        by_cases hpb : price = best
        · rw [if_pos hpb] at hres
          rcases hnb : listMin? (tkeys (terase col price)) with _ | k
          · simp only [hnb] at hres
            obtain ⟨hpair, hcol, hbest⟩ := triple_inv hres
            subst hcol
            subst hbest
            refine ⟨fun kv hkv => h2 kv (mem_terase hkv), ?_,
              fun kv hkv hne => ⟨kv.2, mem_terase hkv, hne⟩⟩
            intro kv hkv hne
            obtain ⟨y, hy, -⟩ := listMin?_of_mem (mem_tkeys_of_mem hkv)
            rw [hnb] at hy
            exact Option.noConfusion hy
          · simp only [hnb] at hres
            rcases hkb : tlookup (terase col price) k with _ | bucket
            · simp only [hkb] at hres
              exact Option.noConfusion hres
            · simp only [hkb] at hres
              cases bucket with
              | nil => simp at hres
              | cons o xs =>
                simp only [List.head?_cons] at hres
                obtain ⟨hpair, hcol, hbest⟩ := triple_inv hres
                subst hcol
                subst hbest
                refine ⟨fun kv hkv => h2 kv (mem_terase hkv), ?_,
                  fun kv hkv hne => ⟨kv.2, mem_terase hkv, hne⟩⟩
                intro kv hkv hne
                refine ⟨listMin?_le hnb kv.1 (mem_tkeys_of_mem hkv), ?_⟩
                obtain ⟨w, hw⟩ := exists_of_mem_tkeys (listMin?_mem hnb)
                exact (h2 _ (mem_terase hw)).2
        · rw [if_neg hpb] at hres
          obtain ⟨hpair, hcol, hbest⟩ := triple_inv hres
          subst hcol
          subst hbest
          exact ⟨fun kv hkv => h2 kv (mem_terase hkv),
            fun kv hkv hne => h4 kv (mem_terase hkv) hne,
            fun kv hkv hne => ⟨kv.2, mem_terase hkv, hne⟩⟩
      · rw [if_neg hlen] at hres
        by_cases hpb : price = best
        · rw [if_pos hpb] at hres
          simp only [tlookup_tinsert_self] at hres
          rcases hvi : v.eraseIdx idx with _ | ⟨o, xs⟩
          · simp only [hvi, List.head?_nil] at hres
            exact Option.noConfusion hres
          · simp only [hvi, List.head?_cons] at hres
            obtain ⟨hpair, hcol, hbest⟩ := triple_inv hres
            subst hcol
            subst hbest
            have hvne : v ≠ [] := by
              intro h0
              subst h0
              simp [List.eraseIdx] at hvi
            refine ⟨?_, ?_, ?_⟩
            · intro kv hkv
              rcases mem_tinsert hkv with h | h
              · subst h
                refine ⟨?_, (h2 _ hvmem).2⟩
                intro o' ho'
                rw [← hvi] at ho'
                exact (h2 _ hvmem).1 o' (mem_eraseIdx ho')
              · exact h2 kv h
            · intro kv hkv hne
              rcases mem_tinsert hkv with h | h
              · subst h
                exact h4 (price, v) hvmem hvne
              · exact h4 kv h hne
            · intro kv hkv hne
              rcases mem_tinsert hkv with h | h
              · subst h
                exact ⟨v, hvmem, hvne⟩
              · exact ⟨kv.2, h, hne⟩
        · rw [if_neg hpb] at hres
          obtain ⟨hpair, hcol, hbest⟩ := triple_inv hres
          subst hcol
          subst hbest
          refine ⟨?_, ?_, ?_⟩
          · intro kv hkv
            rcases mem_tinsert hkv with h | h
            · subst h
              refine ⟨?_, (h2 _ hvmem).2⟩
              intro o' ho'
              exact (h2 _ hvmem).1 o' (mem_eraseIdx ho')
            · exact h2 kv h
          · intro kv hkv hne
            rcases mem_tinsert hkv with h | h
            · subst h
              have hvne : v ≠ [] := by
                intro h0
                subst h0
                simp [List.eraseIdx] at hne
              exact h4 (price, v) hvmem hvne
            · exact h4 kv h hne
          · intro kv hkv hne
            rcases mem_tinsert hkv with h | h
            · subst h
              have hvne : v ≠ [] := by
                intro h0
                subst h0
                simp [List.eraseIdx] at hne
              exact ⟨v, hvmem, hvne⟩
            · exact ⟨kv.2, h, hne⟩

theorem cancel_logic_inv_buy
    (col : SideTable) (uid oid best : Nat)
    (pair : Option Response × Option Response) (col' : SideTable) (best' : Nat)
    (h1 : SideOk col) (h3 : BidsBest col best)
    (hres : cancel_order_logic col Side.Buy uid oid best = some (pair, col', best')) :
    SideOk col' ∧ BidsBest col' best'
      ∧ ∀ kv ∈ col', kv.2 ≠ [] → ∃ w, (kv.1, w) ∈ col ∧ w ≠ [] := by
  rcases hgo : get_order_index col uid oid with _ | ⟨price, idx⟩
  · simp only [cancel_order_logic, hgo] at hres
    obtain ⟨hpair, hcol, hbest⟩ := triple_inv hres
    subst hcol
    subst hbest
    exact ⟨h1, h3, fun kv hkv hne => ⟨kv.2, hkv, hne⟩⟩
  · simp only [cancel_order_logic, hgo] at hres
    rcases hv : tlookup col price with _ | v
    · simp only [hv] at hres
      exact Option.noConfusion hres
    · simp only [hv] at hres
      have hvmem : (price, v) ∈ col := tlookup_eq_some_mem hv
      by_cases hlen : v.length = 1
      · rw [if_pos hlen] at hres
        by_cases hpb : price = best
        · rw [if_pos hpb] at hres
          rcases hnb : listMax? (tkeys (terase col price)) with _ | k
          · simp only [hnb] at hres
            obtain ⟨hpair, hcol, hbest⟩ := triple_inv hres
            subst hcol
            subst hbest
            refine ⟨fun kv hkv => h1 kv (mem_terase hkv), ?_,
              fun kv hkv hne => ⟨kv.2, mem_terase hkv, hne⟩⟩
            intro kv hkv hne
            obtain ⟨y, hy, -⟩ := listMax?_of_mem (mem_tkeys_of_mem hkv)
            rw [hnb] at hy
            exact Option.noConfusion hy
          · simp only [hnb] at hres
            rcases hkb : tlookup (terase col price) k with _ | bucket
            · simp only [hkb] at hres
              exact Option.noConfusion hres
            · simp only [hkb] at hres
              cases bucket with
              | nil => simp at hres
              | cons o xs =>
                simp only [List.head?_cons] at hres
                obtain ⟨hpair, hcol, hbest⟩ := triple_inv hres
                subst hcol
                subst hbest
                refine ⟨fun kv hkv => h1 kv (mem_terase hkv), ?_,
                  fun kv hkv hne => ⟨kv.2, mem_terase hkv, hne⟩⟩
                intro kv hkv hne
                refine ⟨listMax?_ge hnb kv.1 (mem_tkeys_of_mem hkv), ?_⟩
                obtain ⟨w, hw⟩ := exists_of_mem_tkeys (listMax?_mem hnb)
                exact (h1 _ (mem_terase hw)).2
        · rw [if_neg hpb] at hres
          obtain ⟨hpair, hcol, hbest⟩ := triple_inv hres
          subst hcol
          subst hbest
          exact ⟨fun kv hkv => h1 kv (mem_terase hkv),
            fun kv hkv hne => h3 kv (mem_terase hkv) hne,
            fun kv hkv hne => ⟨kv.2, mem_terase hkv, hne⟩⟩
      · rw [if_neg hlen] at hres
        by_cases hpb : price = best
        · rw [if_pos hpb] at hres
          simp only [tlookup_tinsert_self] at hres
          rcases hvi : v.eraseIdx idx with _ | ⟨o, xs⟩
          · simp only [hvi, List.head?_nil] at hres
            exact Option.noConfusion hres
          · simp only [hvi, List.head?_cons] at hres
            obtain ⟨hpair, hcol, hbest⟩ := triple_inv hres
            subst hcol
            subst hbest
            have hvne : v ≠ [] := by
              intro h0
              subst h0
              simp [List.eraseIdx] at hvi
            refine ⟨?_, ?_, ?_⟩
            · intro kv hkv
              rcases mem_tinsert hkv with h | h
              · subst h
                refine ⟨?_, (h1 _ hvmem).2⟩
                intro o' ho'
                rw [← hvi] at ho'
                exact (h1 _ hvmem).1 o' (mem_eraseIdx ho')
              · exact h1 kv h
            · intro kv hkv hne
              rcases mem_tinsert hkv with h | h
              · subst h
                exact h3 (price, v) hvmem hvne
              · exact h3 kv h hne
            · intro kv hkv hne
              rcases mem_tinsert hkv with h | h
              · subst h
                exact ⟨v, hvmem, hvne⟩
              · exact ⟨kv.2, h, hne⟩
        · rw [if_neg hpb] at hres
          obtain ⟨hpair, hcol, hbest⟩ := triple_inv hres
          subst hcol
          subst hbest
          refine ⟨?_, ?_, ?_⟩
          · intro kv hkv
            rcases mem_tinsert hkv with h | h
            · subst h
              refine ⟨?_, (h1 _ hvmem).2⟩
              intro o' ho'
              exact (h1 _ hvmem).1 o' (mem_eraseIdx ho')
            · exact h1 kv h
          · intro kv hkv hne
            rcases mem_tinsert hkv with h | h
            · subst h
              have hvne : v ≠ [] := by
                intro h0
                subst h0
                simp [List.eraseIdx] at hne
              exact h3 (price, v) hvmem hvne
            · exact h3 kv h hne
          · intro kv hkv hne
            rcases mem_tinsert hkv with h | h
            · subst h
              have hvne : v ≠ [] := by
                intro h0
                subst h0
                simp [List.eraseIdx] at hne
              exact ⟨v, hvmem, hvne⟩
            · exact ⟨kv.2, h, hne⟩

theorem cancel_second_inv (b : OrderBook) (uid oid : Nat) (asks' : SideTable) (min' : Nat)
    (pair2 : Option Response × Option Response) (bids' : SideTable) (max' : Nat)
    (h1 : SideOk b.bids) (h3 : BidsBest b.bids b.max_bid) (h5 : NoCrossKeys b.bids b.asks)
    (d1 : SideOk asks') (d2 : AsksBest asks' min')
    (d3 : ∀ kv ∈ asks', kv.2 ≠ [] → ∃ w, (kv.1, w) ∈ b.asks ∧ w ≠ [])
    (hc2 : cancel_order_logic b.bids Side.Buy uid oid b.max_bid = some (pair2, bids', max')) :
    BookInv { b with asks := asks', min_ask := min', bids := bids', max_bid := max' } := by
  obtain ⟨e1, e2, e3⟩ := cancel_logic_inv_buy b.bids uid oid b.max_bid
    pair2 bids' max' h1 h3 hc2
  refine ⟨e1, d1, e2, d2, ?_⟩
  intro kv hkv hne kv' hkv' hne'
  obtain ⟨w, hw, hwne⟩ := e3 kv hkv hne
  obtain ⟨w', hw', hwne'⟩ := d3 kv' hkv' hne'
  exact h5 (kv.1, w) hw hwne (kv'.1, w') hw' hwne'

theorem new_user_action_inv (b : OrderBook) (a : UserAction)
    (resp : Option Response × Option Response) (b' : OrderBook)
    (hInv : BookInv b) (hwf : wf_action a = true)
    (hstep : b.new_user_action a = some (resp, b')) : BookInv b' := by
  obtain ⟨h1, h2, h3, h4, h5⟩ := hInv
  cases a with
  | NewOrder uid sym price qty sideStr oid =>
    have hp : 0 < price := by
      simp only [wf_action, Bool.and_eq_true, decide_eq_true_eq] at hwf
      exact hwf.1
    simp only [OrderBook.new_user_action] at hstep
    have h := Option.some.inj hstep
    cases hside : Side.new sideStr with
    | Buy =>
      rw [hside] at h
      simp only [OrderBook.new_order] at h
      have hb' := congrArg Prod.snd h
      subst hb'
      obtain ⟨c1, c2, c3, c4, c5⟩ := new_order_logic_inv_buy b.bids b.asks b.trades
        b.max_bid b.min_ask (Order.new uid price qty oid) b.trade_active _
        h1 h2 h3 h4 h5 hp rfl
      exact ⟨c1, c2, c3, c4, c5⟩
    | Sell =>
      rw [hside] at h
      simp only [OrderBook.new_order] at h
      have hb' := congrArg Prod.snd h
      subst hb'
      obtain ⟨c1, c2, c3, c4, c5⟩ := new_order_logic_inv_sell b.bids b.asks b.trades
        b.max_bid b.min_ask (Order.new uid price qty oid) b.trade_active _
        h1 h2 h3 h4 h5 hp rfl
      exact ⟨c2, c1, c4, c3, c5⟩
  | CancelOrder uid oid =>
    simp only [OrderBook.new_user_action, OrderBook.cancel_order] at hstep
    rcases hc1 : cancel_order_logic b.asks Side.Sell uid oid b.min_ask
      with _ | ⟨pair1, asks', min'⟩
    · simp only [hc1] at hstep
      exact Option.noConfusion hstep
    · simp only [hc1] at hstep
      obtain ⟨d1, d2, d3⟩ := cancel_logic_inv_sell b.asks uid oid b.min_ask
        pair1 asks' min' h2 h4 hc1
      have hcross1 : NoCrossKeys b.bids asks' := by
        intro kv hkv hne kv' hkv' hne'
        obtain ⟨w, hw, hwne⟩ := d3 kv' hkv' hne'
        exact h5 kv hkv hne (kv'.1, w) hw hwne
      obtain ⟨p1, p2⟩ := pair1
      cases p2 with
      | some r2 =>
        cases p1 with
        | none =>
          rcases hc2 : cancel_order_logic b.bids Side.Buy uid oid b.max_bid
            with _ | ⟨pair2, bids', max'⟩
          · simp only [hc2] at hstep
            exact Option.noConfusion hstep
          · simp only [hc2] at hstep
            have hb' := congrArg Prod.snd (Option.some.inj hstep)
            subst hb'
            exact cancel_second_inv b uid oid asks' min' pair2 bids' max' h1 h3 h5 d1 d2 d3 hc2
        | some a0 =>
          simp only at hstep
          have hb' := congrArg Prod.snd (Option.some.inj hstep)
          subst hb'
          exact ⟨h1, d1, h3, d2, hcross1⟩
      | none =>
        cases p1 with
        | none =>
          rcases hc2 : cancel_order_logic b.bids Side.Buy uid oid b.max_bid
            with _ | ⟨pair2, bids', max'⟩
          · simp only [hc2] at hstep
            exact Option.noConfusion hstep
          · simp only [hc2] at hstep
            have hb' := congrArg Prod.snd (Option.some.inj hstep)
            subst hb'
            exact cancel_second_inv b uid oid asks' min' pair2 bids' max' h1 h3 h5 d1 d2 d3 hc2
        | some a0 =>
          cases a0 with
          | Acknowledge u o =>
            simp only at hstep
            have hb' := congrArg Prod.snd (Option.some.inj hstep)
            subst hb'
            exact ⟨h1, d1, h3, d2, hcross1⟩
          | Best s p q =>
            rcases hc2 : cancel_order_logic b.bids Side.Buy uid oid b.max_bid
              with _ | ⟨pair2, bids', max'⟩
            · simp only [hc2] at hstep
              exact Option.noConfusion hstep
            · simp only [hc2] at hstep
              have hb' := congrArg Prod.snd (Option.some.inj hstep)
              subst hb'
              exact cancel_second_inv b uid oid asks' min' pair2 bids' max' h1 h3 h5 d1 d2 d3 hc2
          | Reject u o =>
            rcases hc2 : cancel_order_logic b.bids Side.Buy uid oid b.max_bid
              with _ | ⟨pair2, bids', max'⟩
            · simp only [hc2] at hstep
              exact Option.noConfusion hstep
            · simp only [hc2] at hstep
              have hb' := congrArg Prod.snd (Option.some.inj hstep)
              subst hb'
              exact cancel_second_inv b uid oid asks' min' pair2 bids' max' h1 h3 h5 d1 d2 d3 hc2
          | Trade t1 t2 t3 t4 t5 t6 =>
            rcases hc2 : cancel_order_logic b.bids Side.Buy uid oid b.max_bid
              with _ | ⟨pair2, bids', max'⟩
            · simp only [hc2] at hstep
              exact Option.noConfusion hstep
            · simp only [hc2] at hstep
              have hb' := congrArg Prod.snd (Option.some.inj hstep)
              subst hb'
              exact cancel_second_inv b uid oid asks' min' pair2 bids' max' h1 h3 h5 d1 d2 d3 hc2
  | Flush =>
    have hb' := congrArg Prod.snd (Option.some.inj hstep)
    subst hb'
    exact ⟨fun kv hkv => absurd hkv (List.not_mem_nil kv),
      fun kv hkv => absurd hkv (List.not_mem_nil kv),
      fun kv hkv => absurd hkv (List.not_mem_nil kv),
      fun kv hkv => absurd hkv (List.not_mem_nil kv),
      fun kv hkv => absurd hkv (List.not_mem_nil kv)⟩

theorem runActions_inv (acts : List UserAction) (b0 : OrderBook)
    (hInv : BookInv b0) (hwf : ∀ a ∈ acts, wf_action a = true)
    (b : OrderBook) (hrun : runActions b0 acts = some b) : BookInv b := by
  induction acts generalizing b0 with
  | nil =>
    simp only [runActions] at hrun
    exact (Option.some.inj hrun) ▸ hInv
  | cons a rest ih =>
    simp only [runActions] at hrun
    rcases hstep : b0.new_user_action a with _ | ⟨resp, b1⟩
    · simp only [hstep] at hrun
      exact Option.noConfusion hrun
    · simp only [hstep] at hrun
      exact ih b1
        (new_user_action_inv b0 a resp b1 hInv (hwf a (List.mem_cons_self _ _)) hstep)
        (fun a' ha' => hwf a' (List.mem_cons_of_mem _ ha')) hrun

theorem OrderBook_new_inv (tick : String) (ta : Bool) :
    BookInv (OrderBook.new tick ta) :=
  ⟨fun kv hkv => absurd hkv (List.not_mem_nil kv),
    fun kv hkv => absurd hkv (List.not_mem_nil kv),
    fun kv hkv => absurd hkv (List.not_mem_nil kv),
    fun kv hkv => absurd hkv (List.not_mem_nil kv),
    fun kv hkv => absurd hkv (List.not_mem_nil kv)⟩

/-- No resting bid order is priced at or above any resting ask order. -/
def NoCrossOrders (b : OrderBook) : Prop :=
  ∀ kv ∈ b.bids, ∀ o ∈ kv.2, ∀ kv' ∈ b.asks, ∀ o' ∈ kv'.2, o.price < o'.price

/-- Claim C5 (amended): after every well-formed action sequence that
completes without panic, no crossing order is left resting — every order
resting on the bid side has price strictly below the price of every order
resting on the ask side.  (The cached `max_bid`/`min_ask` can nonetheless
cross, as the counterexample shows.) -/
theorem c5_resting_orders_never_cross (acts : List UserAction) (tick : String)
    (ta : Bool) (b : OrderBook)
    (hwf : ∀ a ∈ acts, wf_action a = true)
    (hrun : runActions (OrderBook.new tick ta) acts = some b) :
    NoCrossOrders b := by
  obtain ⟨h1, h2, h3, h4, h5⟩ :=
    runActions_inv acts _ (OrderBook_new_inv tick ta) hwf b hrun
  intro kv hkv o ho kv' hkv' o' ho'
  rw [(h1 kv hkv).1 o ho, (h2 kv' hkv').1 o' ho']
  exact h5 kv hkv (List.ne_nil_of_mem ho) kv' hkv' (List.ne_nil_of_mem ho')

/-- Claim C5 witness at a concrete input: a two-order book built by a bid
at 10 and an ask at 12 has no crossing resting orders. -/
theorem c5_amended_witness :
    (∀ a ∈ [UserAction.NewOrder 1 "IBM" 10 100 "B" 1,
            UserAction.NewOrder 2 "IBM" 12 50 "S" 2], wf_action a = true)
    ∧ NoCrossOrders ⟨10, 12, "IBM", [(12, [Order.new 2 12 50 2])],
        [(10, [Order.new 1 10 100 1])], [], false⟩ := by
  constructor
  · decide
  · exact c5_resting_orders_never_cross
      [UserAction.NewOrder 1 "IBM" 10 100 "B" 1,
       UserAction.NewOrder 2 "IBM" 12 50 "S" 2]
      "IBM" false
      ⟨10, 12, "IBM", [(12, [Order.new 2 12 50 2])],
        [(10, [Order.new 1 10 100 1])], [], false⟩
      (by decide) (by decide)
